import Mathlib

/-!
Verification of the background-removal core of the `rico` image tool
(`src/main.rs`): the edge predicate `is_edge` and the border-seeded
flood fill `remove_background`.

The embedding is shallow.  Pixels are four natural-number channels (the
Rust code uses `u8`; channel bounds are stated as hypotheses where a
proof needs them).  An image is a width, a height and a pixel function;
only in-bounds entries of the pixel function are meaningful.  Every
buffer access of the Rust code (`get_pixel`, `put_pixel`, the
`visited[y][x]` grid) is modelled by a bounds-checked primitive
returning `Option`, and `u32` subtraction is modelled by `checkedSub`,
so a `none` result of the model corresponds to an out-of-bounds access
or an arithmetic underflow panic of the code.  The BFS loop runs on
explicit fuel; termination is proved by a decreasing measure.  The
`processed` field of the fill state is ghost instrumentation recording
the coordinates that pass the visited check, in the order they are
classified; it influences nothing the code computes.
-/

namespace Rico

/-- One RGBA pixel: four 8-bit channels, modelled as naturals. -/
structure Pixel where
  r : Nat
  g : Nat
  b : Nat
  a : Nat
deriving DecidableEq

/-- The fully transparent black pixel `Rgba([0, 0, 0, 0])` written by the fill. -/
def zeroPixel : Pixel := ⟨0, 0, 0, 0⟩

/-- `u8::abs_diff`: absolute difference of two channel values. -/
def absDiff (a b : Nat) : Nat := if a < b then b - a else a - b

/-- `is_edge` from `src/main.rs`: true when any of the R, G, B channel
differences strictly exceeds the threshold; alpha is ignored. -/
def is_edge (p1 p2 : Pixel) (edge_threshold : Nat) : Bool :=
  decide (absDiff p1.r p2.r > edge_threshold) ||
    decide (absDiff p1.g p2.g > edge_threshold) ||
    decide (absDiff p1.b p2.b > edge_threshold)

/-- An RGBA image buffer: dimensions plus the pixel contents.  Only the
values of `pix` at coordinates `x < width`, `y < height` are meaningful. -/
structure Image where
  width : Nat
  height : Nat
  pix : Nat → Nat → Pixel

/-- Bounds-checked `get_pixel`: `none` models the panic on an
out-of-bounds read. -/
def Image.getPixel? (img : Image) (x y : Nat) : Option Pixel :=
  if x < img.width ∧ y < img.height then some (img.pix x y) else none

/-- Bounds-checked read of the `visited[y][x]` grid (a
`vec![vec![false; width]; height]` in the code). -/
def visitedGet? (img : Image) (vis : Nat → Nat → Bool) (x y : Nat) : Option Bool :=
  if y < img.height ∧ x < img.width then some (vis x y) else none

/-- Bounds-checked `put_pixel` on the output buffer. -/
def putPixel? (img : Image) (out : Nat → Nat → Pixel) (x y : Nat) (p : Pixel) :
    Option (Nat → Nat → Pixel) :=
  if x < img.width ∧ y < img.height then
    some (fun u v => if u = x ∧ v = y then p else out u v)
  else none

/-- `u32` subtraction with the overflow check: `none` models the
subtraction-overflow panic (`height - 1` with `height = 0`). -/
def checkedSub (a b : Nat) : Option Nat := if b ≤ a then some (a - b) else none

/-- Seeding loop `for x in 0..width { push (x, 0); push (x, height-1) }`.
`height - 1` is evaluated inside the loop body, hence only when
`width ≥ 1`. -/
def seedTopBottom? (w h : Nat) : Option (List (Nat × Nat)) :=
  if w = 0 then some []
  else
    match checkedSub h 1 with
    | none => none
    | some hm1 => some ((List.range w).flatMap fun x => [(x, 0), (x, hm1)])

/-- Seeding loop `for y in 1..height-1 { push (0, y); push (width-1, y) }`.
`height - 1` is evaluated once to build the range; `width - 1` is
evaluated inside the body, hence only when the range is non-empty. -/
def seedSides? (w h : Nat) : Option (List (Nat × Nat)) :=
  match checkedSub h 1 with
  | none => none
  | some hm1 =>
    if hm1 ≤ 1 then some []
    else
      match checkedSub w 1 with
      | none => none
      | some wm1 =>
        some (((List.range (hm1 - 1)).map (fun i => i + 1)).flatMap fun y => [(0, y), (wm1, y)])

/-- The initial BFS queue: top and bottom rows, then the side columns of
the interior rows, in the order the Rust code pushes them. -/
def borderSeeds? (w h : Nat) : Option (List (Nat × Nat)) :=
  match seedTopBottom? w h with
  | none => none
  | some tb =>
    match seedSides? w h with
    | none => none
    | some sides => some (tb ++ sides)

/-- State of the flood fill: the output buffer, the visited grid and the
work queue.  `processed` is ghost instrumentation: the coordinates that
passed the visited check, in classification order. -/
structure FillState where
  out : Nat → Nat → Pixel
  visited : Nat → Nat → Bool
  queue : List (Nat × Nat)
  processed : List (Nat × Nat)

/-- The four neighbor edge checks of the fill, each guarded exactly as in
the code (`x > 0`, `x + 1 < width`, `y > 0`, `y + 1 < height`), with
bounds-checked pixel reads. -/
def surroundedByEdges? (img : Image) (t : Nat) (p : Pixel) (x y : Nat) : Option Bool :=
  match (if 0 < x then (img.getPixel? (x - 1) y).map (fun q => is_edge p q t) else some false),
      (if x + 1 < img.width then (img.getPixel? (x + 1) y).map (fun q => is_edge p q t)
        else some false),
      (if 0 < y then (img.getPixel? x (y - 1)).map (fun q => is_edge p q t) else some false),
      (if y + 1 < img.height then (img.getPixel? x (y + 1)).map (fun q => is_edge p q t)
        else some false) with
  | some e1, some e2, some e3, some e4 => some (e1 || e2 || e3 || e4)
  | _, _, _, _ => none

/-- The neighbors pushed after a removal, in push order, each guarded as
in the code. -/
def neighborPushes (img : Image) (x y : Nat) : List (Nat × Nat) :=
  (if 0 < x then [(x - 1, y)] else []) ++
    (if x + 1 < img.width then [(x + 1, y)] else []) ++
    (if 0 < y then [(x, y - 1)] else []) ++
    (if y + 1 < img.height then [(x, y + 1)] else [])

/-- One iteration of the BFS `while let` loop, for a dequeued coordinate
`(x, y)` and remaining queue `rest`: the bounds/visited guard, the
near-white test on the source pixel, the four neighbor edge checks, and
either retention or removal plus neighbor pushes. -/
def processCell? (img : Image) (t : Nat) (s : FillState) (x y : Nat)
    (rest : List (Nat × Nat)) : Option FillState :=
  if x ≥ img.width ∨ y ≥ img.height then
    some { s with queue := rest }
  else
    match visitedGet? img s.visited x y with
    | none => none
    | some true => some { s with queue := rest }
    | some false =>
      let vis2 : Nat → Nat → Bool := fun u v => if u = x ∧ v = y then true else s.visited u v
      match img.getPixel? x y with
      | none => none
      | some p =>
        if 240 < p.r ∧ 240 < p.g ∧ 240 < p.b then
          match surroundedByEdges? img t p x y with
          | none => none
          | some true =>
            some { s with visited := vis2, queue := rest, processed := s.processed ++ [(x, y)] }
          | some false =>
            match putPixel? img s.out x y zeroPixel with
            | none => none
            | some out2 =>
              some ⟨out2, vis2, rest ++ neighborPushes img x y, s.processed ++ [(x, y)]⟩
        else
          some { s with visited := vis2, queue := rest, processed := s.processed ++ [(x, y)] }

/-- The BFS loop, on explicit fuel.  `none` on fuel exhaustion; the fuel
supplied by `fillRun?` is proved sufficient. -/
def fillLoop? (img : Image) (t : Nat) : Nat → FillState → Option FillState
  | 0, _ => none
  | fuel + 1, s =>
    match s.queue with
    | [] => some s
    | (x, y) :: rest => (processCell? img t s x y rest).bind (fillLoop? img t fuel)

/-- Fuel budget: every pop either drops a queue entry or marks one of the
`width * height` cells visited while pushing at most four entries. -/
def initFuel (img : Image) (seeds : List (Nat × Nat)) : Nat :=
  seeds.length + 5 * (img.width * img.height) + 1

/-- Initial fill state: output starts as a copy of the source, nothing
visited, the queue holds the border seeds. -/
def initState (img : Image) (seeds : List (Nat × Nat)) : FillState :=
  { out := img.pix, visited := fun _ _ => false, queue := seeds, processed := [] }

/-- The whole fill: seed the border, then run the BFS to completion. -/
def fillRun? (img : Image) (t : Nat) : Option FillState :=
  match borderSeeds? img.width img.height with
  | none => none
  | some seeds => fillLoop? img t (initFuel img seeds) (initState img seeds)

/-- `remove_background`: the output image carries the final output
buffer.  `none` models a panic (out-of-bounds access or `u32`
underflow); the main theorems prove `some` for `width, height ≥ 1`. -/
def remove_background? (img : Image) (t : Nat) : Option Image :=
  (fillRun? img t).map fun s => { width := img.width, height := img.height, pix := s.out }

/-! ### Specification-side predicates -/

/-- In-bounds coordinates. -/
def inB (img : Image) (c : Nat × Nat) : Prop := c.1 < img.width ∧ c.2 < img.height

/-- Near-white: all of R, G, B strictly above 240 (the fill's candidate test). -/
def nearWhite (p : Pixel) : Prop := 240 < p.r ∧ 240 < p.g ∧ 240 < p.b

/-- 4-adjacency of grid coordinates. -/
def adj (c d : Nat × Nat) : Prop :=
  (d.1 = c.1 + 1 ∧ d.2 = c.2) ∨ (c.1 = d.1 + 1 ∧ c.2 = d.2) ∨
    (d.2 = c.2 + 1 ∧ d.1 = c.1) ∨ (c.2 = d.2 + 1 ∧ c.1 = d.1)

/-- No in-bounds 4-neighbor of `c` triggers the edge predicate against `c`. -/
def noEdgeNbr (img : Image) (t : Nat) (c : Nat × Nat) : Prop :=
  ∀ d, adj c d → inB img d → is_edge (img.pix c.1 c.2) (img.pix d.1 d.2) t = false

/-- A cell the fill removes when it reaches it: near-white with no
edge-triggering in-bounds neighbor. -/
def goodCell (img : Image) (t : Nat) (c : Nat × Nat) : Prop :=
  nearWhite (img.pix c.1 c.2) ∧ noEdgeNbr img t c

/-- Membership in the outer border ring. -/
def onBorder (img : Image) (c : Nat × Nat) : Prop :=
  c.1 = 0 ∨ c.1 = img.width - 1 ∨ c.2 = 0 ∨ c.2 = img.height - 1

/-- Reachability from the border through a 4-connected chain of cells,
each near-white and with no edge-triggering in-bounds neighbor. -/
inductive Reach (img : Image) (t : Nat) : Nat × Nat → Prop where
  | border : ∀ c, inB img c → onBorder img c → goodCell img t c → Reach img t c
  | step : ∀ c d, Reach img t c → adj c d → inB img d → goodCell img t d → Reach img t d

instance (img : Image) (c : Nat × Nat) : Decidable (inB img c) := by
  unfold inB; infer_instance

instance (p : Pixel) : Decidable (nearWhite p) := by
  unfold nearWhite; infer_instance

instance (c d : Nat × Nat) : Decidable (adj c d) := by
  unfold adj; infer_instance

instance (img : Image) (c : Nat × Nat) : Decidable (onBorder img c) := by
  unfold onBorder; infer_instance

/-! ### The edge predicate: basic characterizations -/

theorem absDiff_comm (a b : Nat) : absDiff a b = absDiff b a := by
  unfold absDiff; split <;> split <;> omega

theorem is_edge_true_iff (p1 p2 : Pixel) (t : Nat) :
    is_edge p1 p2 t = true ↔
      (t < absDiff p1.r p2.r ∨ t < absDiff p1.g p2.g ∨ t < absDiff p1.b p2.b) := by
  simp [is_edge, Bool.or_eq_true, decide_eq_true_iff, gt_iff_lt, or_assoc]

theorem is_edge_false_iff (p1 p2 : Pixel) (t : Nat) :
    is_edge p1 p2 t = false ↔
      (absDiff p1.r p2.r ≤ t ∧ absDiff p1.g p2.g ≤ t ∧ absDiff p1.b p2.b ≤ t) := by
  rw [← Bool.not_eq_true, is_edge_true_iff]
  push_neg
  omega

/-! ### Unfolding lemmas for the specification predicates -/

theorem inB_iff (img : Image) (c : Nat × Nat) :
    inB img c ↔ c.1 < img.width ∧ c.2 < img.height := Iff.rfl

theorem nearWhite_iff (p : Pixel) : nearWhite p ↔ 240 < p.r ∧ 240 < p.g ∧ 240 < p.b := Iff.rfl

theorem adj_iff (c d : Nat × Nat) :
    adj c d ↔ (d.1 = c.1 + 1 ∧ d.2 = c.2) ∨ (c.1 = d.1 + 1 ∧ c.2 = d.2) ∨
      (d.2 = c.2 + 1 ∧ d.1 = c.1) ∨ (c.2 = d.2 + 1 ∧ c.1 = d.1) := Iff.rfl

theorem onBorder_iff (img : Image) (c : Nat × Nat) :
    onBorder img c ↔ c.1 = 0 ∨ c.1 = img.width - 1 ∨ c.2 = 0 ∨ c.2 = img.height - 1 := Iff.rfl

theorem Reach_good {img : Image} {t : Nat} {c : Nat × Nat} (h : Reach img t c) :
    goodCell img t c := by
  cases h with
  | border c hb hbo hg => exact hg
  | step c d hr hadj hb hg => exact hg

theorem Reach_inB {img : Image} {t : Nat} {c : Nat × Nat} (h : Reach img t c) :
    inB img c := by
  cases h with
  | border c hb hbo hg => exact hb
  | step c d hr hadj hb hg => exact hb

/-! ### The four-neighbor edge test, characterized -/

/-- The value of `is_surrounded_by_edges` computed by the loop body at an
in-bounds cell. -/
def surroundedBool (img : Image) (t : Nat) (x y : Nat) : Bool :=
  (decide (0 < x) && is_edge (img.pix x y) (img.pix (x - 1) y) t) ||
    (decide (x + 1 < img.width) && is_edge (img.pix x y) (img.pix (x + 1) y) t) ||
    (decide (0 < y) && is_edge (img.pix x y) (img.pix x (y - 1)) t) ||
    (decide (y + 1 < img.height) && is_edge (img.pix x y) (img.pix x (y + 1)) t)

theorem surroundedByEdges?_eq (img : Image) (t x y : Nat)
    (hx : x < img.width) (hy : y < img.height) :
    surroundedByEdges? img t (img.pix x y) x y = some (surroundedBool img t x y) := by
  have hx1 : x - 1 < img.width := lt_of_le_of_lt (Nat.sub_le x 1) hx
  have hy1 : y - 1 < img.height := lt_of_le_of_lt (Nat.sub_le y 1) hy
  unfold surroundedByEdges? surroundedBool Image.getPixel?
  by_cases h1 : 0 < x <;> by_cases h2 : x + 1 < img.width <;>
    by_cases h3 : 0 < y <;> by_cases h4 : y + 1 < img.height <;>
    simp [h1, h2, h3, h4, hx, hy, hx1, hy1]

theorem surroundedBool_true_iff (img : Image) (t x y : Nat)
    (hx : x < img.width) (hy : y < img.height) :
    surroundedBool img t x y = true ↔
      ∃ d, adj (x, y) d ∧ inB img d ∧ is_edge (img.pix x y) (img.pix d.1 d.2) t = true := by
  constructor
  · intro h
    simp only [surroundedBool, Bool.or_eq_true, Bool.and_eq_true, decide_eq_true_iff] at h
    rcases h with ((⟨h0, he⟩ | ⟨h0, he⟩) | ⟨h0, he⟩) | ⟨h0, he⟩
    · exact ⟨(x - 1, y), Or.inr (Or.inl ⟨by omega, rfl⟩), ⟨hx1_aux h0 hx, hy⟩, he⟩
    · exact ⟨(x + 1, y), Or.inl ⟨rfl, rfl⟩, ⟨h0, hy⟩, he⟩
    · exact ⟨(x, y - 1), Or.inr (Or.inr (Or.inr ⟨by omega, rfl⟩)), ⟨hx, hy1_aux h0 hy⟩, he⟩
    · exact ⟨(x, y + 1), Or.inr (Or.inr (Or.inl ⟨rfl, rfl⟩)), ⟨hx, h0⟩, he⟩
  · rintro ⟨⟨a, b⟩, hadj, hb, he⟩
    obtain ⟨hba, hbb⟩ : a < img.width ∧ b < img.height := hb
    simp only [surroundedBool, Bool.or_eq_true, Bool.and_eq_true, decide_eq_true_iff]
    rcases hadj with ⟨h1, h2⟩ | ⟨h1, h2⟩ | ⟨h1, h2⟩ | ⟨h1, h2⟩ <;>
      simp only at h1 h2
    · refine Or.inl (Or.inl (Or.inr ⟨by omega, ?_⟩))
      have ha : a = x + 1 := h1
      subst ha; subst h2; exact he
    · refine Or.inl (Or.inl (Or.inl ⟨by omega, ?_⟩))
      have ha : a = x - 1 := by omega
      subst ha; subst h2; exact he
    · refine Or.inr ⟨by omega, ?_⟩
      have hbeq : b = y + 1 := h1
      subst hbeq; subst h2; exact he
    · refine Or.inl (Or.inr ⟨by omega, ?_⟩)
      have hbeq : b = y - 1 := by omega
      subst hbeq; subst h2; exact he
where
  hx1_aux {x w : Nat} (h0 : 0 < x) (hx : x < w) : x - 1 < w := by omega
  hy1_aux {y h : Nat} (h0 : 0 < y) (hy : y < h) : y - 1 < h := by omega

theorem surroundedBool_false_iff (img : Image) (t x y : Nat)
    (hx : x < img.width) (hy : y < img.height) :
    surroundedBool img t x y = false ↔ noEdgeNbr img t (x, y) := by
  rw [← Bool.not_eq_true, surroundedBool_true_iff img t x y hx hy]
  constructor
  · intro h d hadj hinB
    by_contra hne
    exact h ⟨d, hadj, hinB, by
      cases hcase : is_edge (img.pix x y) (img.pix d.1 d.2) t with
      | false => exact absurd hcase hne
      | true => rfl⟩
  · rintro h ⟨d, hadj, hinB, he⟩
    rw [h d hadj hinB] at he
    cases he

/-! ### Neighbor pushes, characterized -/

theorem neighborPushes_length_le (img : Image) (x y : Nat) :
    (neighborPushes img x y).length ≤ 4 := by
  unfold neighborPushes
  by_cases h1 : 0 < x <;> by_cases h2 : x + 1 < img.width <;>
    by_cases h3 : 0 < y <;> by_cases h4 : y + 1 < img.height <;>
    simp [h1, h2, h3, h4]

theorem neighborPushes_mem (img : Image) (x y : Nat)
    (hx : x < img.width) (hy : y < img.height) (d : Nat × Nat) :
    d ∈ neighborPushes img x y ↔ adj (x, y) d ∧ inB img d := by
  obtain ⟨a, b⟩ := d
  unfold neighborPushes
  by_cases h1 : 0 < x <;> by_cases h2 : x + 1 < img.width <;>
    by_cases h3 : 0 < y <;> by_cases h4 : y + 1 < img.height <;>
    simp [h1, h2, h3, h4, List.mem_append, adj_iff, inB_iff, Prod.mk.injEq] <;>
    omega

/-! ### Equations for one loop iteration -/

/-- The visited grid after marking `(x, y)`. -/
def markVisited (vis : Nat → Nat → Bool) (x y : Nat) : Nat → Nat → Bool :=
  fun u v => if u = x ∧ v = y then true else vis u v

/-- The output buffer after writing the transparent pixel at `(x, y)`. -/
def writeZero (out : Nat → Nat → Pixel) (x y : Nat) : Nat → Nat → Pixel :=
  fun u v => if u = x ∧ v = y then zeroPixel else out u v

theorem processCell?_oob (img : Image) (t : Nat) (s : FillState) (x y : Nat)
    (rest : List (Nat × Nat)) (h : img.width ≤ x ∨ img.height ≤ y) :
    processCell? img t s x y rest = some { s with queue := rest } := by
  unfold processCell?
  exact if_pos h

theorem processCell?_visited (img : Image) (t : Nat) (s : FillState) (x y : Nat)
    (rest : List (Nat × Nat)) (hx : x < img.width) (hy : y < img.height)
    (hv : s.visited x y = true) :
    processCell? img t s x y rest = some { s with queue := rest } := by
  unfold processCell?
  rw [if_neg (by omega), show visitedGet? img s.visited x y = some true from by
    unfold visitedGet?; rw [if_pos ⟨hy, hx⟩, hv]]

theorem processCell?_notWhite (img : Image) (t : Nat) (s : FillState) (x y : Nat)
    (rest : List (Nat × Nat)) (hx : x < img.width) (hy : y < img.height)
    (hv : s.visited x y = false) (hnw : ¬ nearWhite (img.pix x y)) :
    processCell? img t s x y rest =
      some ⟨s.out, markVisited s.visited x y, rest, s.processed ++ [(x, y)]⟩ := by
  have hguard : ¬(x ≥ img.width ∨ y ≥ img.height) := by omega
  have hvis : visitedGet? img s.visited x y = some false := by
    unfold visitedGet?; rw [if_pos ⟨hy, hx⟩, hv]
  have hget : img.getPixel? x y = some (img.pix x y) := by
    unfold Image.getPixel?; rw [if_pos ⟨hx, hy⟩]
  have hcond : ¬(240 < (img.pix x y).r ∧ 240 < (img.pix x y).g ∧ 240 < (img.pix x y).b) := hnw
  unfold processCell?
  simp only [if_neg hguard, hvis, hget, if_neg hcond]
  rfl

theorem processCell?_halt (img : Image) (t : Nat) (s : FillState) (x y : Nat)
    (rest : List (Nat × Nat)) (hx : x < img.width) (hy : y < img.height)
    (hv : s.visited x y = false) (hnw : nearWhite (img.pix x y))
    (hsur : surroundedBool img t x y = true) :
    processCell? img t s x y rest =
      some ⟨s.out, markVisited s.visited x y, rest, s.processed ++ [(x, y)]⟩ := by
  have hguard : ¬(x ≥ img.width ∨ y ≥ img.height) := by omega
  have hvis : visitedGet? img s.visited x y = some false := by
    unfold visitedGet?; rw [if_pos ⟨hy, hx⟩, hv]
  have hget : img.getPixel? x y = some (img.pix x y) := by
    unfold Image.getPixel?; rw [if_pos ⟨hx, hy⟩]
  have hcond : 240 < (img.pix x y).r ∧ 240 < (img.pix x y).g ∧ 240 < (img.pix x y).b := hnw
  unfold processCell?
  simp only [if_neg hguard, hvis, hget, if_pos hcond,
    surroundedByEdges?_eq img t x y hx hy, hsur]
  rfl

theorem processCell?_fill (img : Image) (t : Nat) (s : FillState) (x y : Nat)
    (rest : List (Nat × Nat)) (hx : x < img.width) (hy : y < img.height)
    (hv : s.visited x y = false) (hnw : nearWhite (img.pix x y))
    (hsur : surroundedBool img t x y = false) :
    processCell? img t s x y rest =
      some ⟨writeZero s.out x y, markVisited s.visited x y,
        rest ++ neighborPushes img x y, s.processed ++ [(x, y)]⟩ := by
  have hguard : ¬(x ≥ img.width ∨ y ≥ img.height) := by omega
  have hvis : visitedGet? img s.visited x y = some false := by
    unfold visitedGet?; rw [if_pos ⟨hy, hx⟩, hv]
  have hget : img.getPixel? x y = some (img.pix x y) := by
    unfold Image.getPixel?; rw [if_pos ⟨hx, hy⟩]
  have hcond : 240 < (img.pix x y).r ∧ 240 < (img.pix x y).g ∧ 240 < (img.pix x y).b := hnw
  have hput : putPixel? img s.out x y zeroPixel = some (writeZero s.out x y) := by
    unfold putPixel? writeZero; rw [if_pos ⟨hx, hy⟩]
  unfold processCell?
  simp only [if_neg hguard, hvis, hget, if_pos hcond,
    surroundedByEdges?_eq img t x y hx hy, hsur, hput]
  rfl

/-! ### Termination: the loop measure -/

/-- Number of in-bounds cells not yet visited. -/
def unvisitedCount (img : Image) (vis : Nat → Nat → Bool) : Nat :=
  (((Finset.range img.width) ×ˢ (Finset.range img.height)).filter
    (fun c => vis c.1 c.2 = false)).card

/-- The loop measure: queue length plus five per unvisited cell. -/
def fillMeasure (img : Image) (s : FillState) : Nat :=
  s.queue.length + 5 * unvisitedCount img s.visited

theorem unvisitedCount_mark (img : Image) (vis : Nat → Nat → Bool) (x y : Nat)
    (hx : x < img.width) (hy : y < img.height) (hv : vis x y = false) :
    unvisitedCount img (markVisited vis x y) + 1 = unvisitedCount img vis := by
  unfold unvisitedCount
  have hmem : (x, y) ∈ ((Finset.range img.width) ×ˢ (Finset.range img.height)).filter
      (fun c => vis c.1 c.2 = false) := by
    simp [Finset.mem_filter, Finset.mem_product, Finset.mem_range, hx, hy, hv]
  have hset : ((Finset.range img.width) ×ˢ (Finset.range img.height)).filter
        (fun c => markVisited vis x y c.1 c.2 = false) =
      (((Finset.range img.width) ×ˢ (Finset.range img.height)).filter
        (fun c => vis c.1 c.2 = false)).erase (x, y) := by
    ext c
    obtain ⟨a, b⟩ := c
    by_cases hc : a = x ∧ b = y
    · obtain ⟨ha, hb⟩ := hc
      subst ha; subst hb
      simp [Finset.mem_filter, Finset.mem_erase, markVisited]
    · simp only [Finset.mem_filter, Finset.mem_erase, Finset.mem_product, Finset.mem_range,
        markVisited, if_neg hc, Prod.mk.injEq]
      constructor
      · rintro ⟨hin, hveq⟩
        exact ⟨fun hcontra => hc (Prod.ext_iff.mp hcontra), hin, hveq⟩
      · rintro ⟨hne, hin, hveq⟩
        exact ⟨hin, hveq⟩
  rw [hset, Finset.card_erase_of_mem hmem]
  have : 0 < (((Finset.range img.width) ×ˢ (Finset.range img.height)).filter
      (fun c => vis c.1 c.2 = false)).card := Finset.card_pos.mpr ⟨(x, y), hmem⟩
  omega

theorem unvisitedCount_le (img : Image) (vis : Nat → Nat → Bool) :
    unvisitedCount img vis ≤ img.width * img.height := by
  unfold unvisitedCount
  calc (((Finset.range img.width) ×ˢ (Finset.range img.height)).filter
        (fun c => vis c.1 c.2 = false)).card
      ≤ ((Finset.range img.width) ×ˢ (Finset.range img.height)).card :=
        Finset.card_le_card (Finset.filter_subset _ _)
    _ = img.width * img.height := by rw [Finset.card_product, Finset.card_range, Finset.card_range]

/-- Every loop iteration succeeds and strictly decreases the measure. -/
theorem processCell?_total (img : Image) (t : Nat) (s : FillState) (x y : Nat)
    (rest : List (Nat × Nat)) (hq : s.queue = (x, y) :: rest) :
    ∃ s2, processCell? img t s x y rest = some s2 ∧
      fillMeasure img s2 < fillMeasure img s := by
  by_cases hx : x < img.width
  · by_cases hy : y < img.height
    · cases hv : s.visited x y with
      | true =>
        refine ⟨_, processCell?_visited img t s x y rest hx hy hv, ?_⟩
        simp [fillMeasure, hq]
      | false =>
        have hm := unvisitedCount_mark img s.visited x y hx hy hv
        by_cases hnw : nearWhite (img.pix x y)
        · cases hsur : surroundedBool img t x y with
          | true =>
            refine ⟨_, processCell?_halt img t s x y rest hx hy hv hnw hsur, ?_⟩
            simp only [fillMeasure, hq, List.length_cons]
            omega
          | false =>
            refine ⟨_, processCell?_fill img t s x y rest hx hy hv hnw hsur, ?_⟩
            simp only [fillMeasure, hq, List.length_cons, List.length_append]
            have := neighborPushes_length_le img x y
            omega
        · refine ⟨_, processCell?_notWhite img t s x y rest hx hy hv hnw, ?_⟩
          simp only [fillMeasure, hq, List.length_cons]
          omega
    · refine ⟨_, processCell?_oob img t s x y rest (Or.inr (by omega)), ?_⟩
      simp [fillMeasure, hq]
  · refine ⟨_, processCell?_oob img t s x y rest (Or.inl (by omega)), ?_⟩
    simp [fillMeasure, hq]

/-- With fuel above the measure, the loop runs to completion. -/
theorem fillLoop?_total (img : Image) (t : Nat) :
    ∀ fuel s, fillMeasure img s < fuel →
      ∃ s2, fillLoop? img t fuel s = some s2 ∧ s2.queue = [] := by
  intro fuel
  induction fuel with
  | zero => intro s h; omega
  | succ n ih =>
    intro s h
    cases hq : s.queue with
    | nil => exact ⟨s, by unfold fillLoop?; rw [hq], hq⟩
    | cons hd rest =>
      obtain ⟨x, y⟩ := hd
      obtain ⟨s1, hstep, hdec⟩ := processCell?_total img t s x y rest hq
      obtain ⟨s2, hloop, hq2⟩ := ih s1 (by omega)
      refine ⟨s2, ?_, hq2⟩
      unfold fillLoop?
      rw [hq]
      show (processCell? img t s x y rest).bind (fillLoop? img t n) = some s2
      rw [hstep]
      exact hloop

/-! ### The border seed list -/

theorem borderSeeds_spec (w h : Nat) (hw : 1 ≤ w) (hh : 1 ≤ h) :
    ∃ seeds, borderSeeds? w h = some seeds ∧
      (∀ c ∈ seeds, c.1 < w ∧ c.2 < h ∧ (c.1 = 0 ∨ c.1 = w - 1 ∨ c.2 = 0 ∨ c.2 = h - 1)) ∧
      (∀ c : Nat × Nat, c.1 < w → c.2 < h →
        (c.1 = 0 ∨ c.1 = w - 1 ∨ c.2 = 0 ∨ c.2 = h - 1) → c ∈ seeds) := by
  have htb : seedTopBottom? w h =
      some ((List.range w).flatMap fun x => [(x, 0), (x, h - 1)]) := by
    unfold seedTopBottom? checkedSub
    rw [if_neg (by omega)]
    simp only [if_pos hh]
  by_cases hcase : h - 1 ≤ 1
  · have hsides : seedSides? w h = some [] := by
      unfold seedSides? checkedSub
      simp only [if_pos hh, if_pos hcase]
    have hseeds : borderSeeds? w h =
        some (((List.range w).flatMap fun x => [(x, 0), (x, h - 1)]) ++ []) := by
      unfold borderSeeds?
      simp only [htb, hsides]
    refine ⟨_, hseeds, ?_, ?_⟩
    · rintro ⟨a, b⟩ hc
      simp only [List.append_nil, List.mem_flatMap, List.mem_range, List.mem_cons,
        List.not_mem_nil, or_false, Prod.mk.injEq] at hc
      obtain ⟨x, hx, hor⟩ := hc
      omega
    · rintro ⟨a, b⟩ ha hb hbord
      simp only [List.append_nil, List.mem_flatMap, List.mem_range, List.mem_cons,
        List.not_mem_nil, or_false, Prod.mk.injEq]
      exact ⟨a, ha, by omega⟩
  · have hsides : seedSides? w h = some (((List.range (h - 1 - 1)).map
        (fun i => i + 1)).flatMap fun y => [(0, y), (w - 1, y)]) := by
      unfold seedSides? checkedSub
      simp only [if_pos hh, if_neg hcase, if_pos hw]
    have hseeds : borderSeeds? w h =
        some (((List.range w).flatMap fun x => [(x, 0), (x, h - 1)]) ++
          (((List.range (h - 1 - 1)).map (fun i => i + 1)).flatMap
            fun y => [(0, y), (w - 1, y)])) := by
      unfold borderSeeds?
      simp only [htb, hsides]
    refine ⟨_, hseeds, ?_, ?_⟩
    · rintro ⟨a, b⟩ hc
      rw [List.mem_append] at hc
      rcases hc with hc | hc
      · simp only [List.mem_flatMap, List.mem_range, List.mem_cons,
          List.not_mem_nil, or_false, Prod.mk.injEq] at hc
        obtain ⟨x, hx, hor⟩ := hc
        omega
      · simp only [List.mem_flatMap, List.mem_map, List.mem_range, List.mem_cons,
          List.not_mem_nil, or_false, Prod.mk.injEq] at hc
        obtain ⟨y, ⟨i, hi, hiy⟩, hor⟩ := hc
        omega
    · rintro ⟨a, b⟩ ha hb hbord
      rw [List.mem_append]
      by_cases hb0 : b = 0
      · refine Or.inl ?_
        simp only [List.mem_flatMap, List.mem_range, List.mem_cons,
          List.not_mem_nil, or_false, Prod.mk.injEq]
        exact ⟨a, ha, by omega⟩
      · by_cases hb1 : b = h - 1
        · refine Or.inl ?_
          simp only [List.mem_flatMap, List.mem_range, List.mem_cons,
            List.not_mem_nil, or_false, Prod.mk.injEq]
          exact ⟨a, ha, by omega⟩
        · refine Or.inr ?_
          simp only [List.mem_flatMap, List.mem_map, List.mem_range, List.mem_cons,
            List.not_mem_nil, or_false, Prod.mk.injEq]
          exact ⟨b, ⟨b - 1, by omega, by omega⟩, by omega⟩

/-! ### The loop invariant -/

/-- Invariant of the BFS loop, relative to the source image, the
threshold and the initial seed list:

* `visited` agrees with membership in the `processed` trace;
* each cell is processed at most once, and only in-bounds cells are;
* unprocessed cells still hold their source pixel in the output;
* a processed removable cell has been overwritten with the transparent
  pixel and is reachable from the border; a processed non-removable cell
  is untouched;
* every in-bounds queue entry is a border cell or a neighbor of a
  reachable cell;
* every in-bounds seed, and every in-bounds neighbor of a processed
  removable cell, is still queued or already processed. -/
structure Inv (img : Image) (t : Nat) (seeds : List (Nat × Nat)) (s : FillState) : Prop where
  visIff : ∀ x y, s.visited x y = true ↔ (x, y) ∈ s.processed
  procNodup : s.processed.Nodup
  procInB : ∀ c ∈ s.processed, inB img c
  outUnproc : ∀ c : Nat × Nat, inB img c → c ∉ s.processed → s.out c.1 c.2 = img.pix c.1 c.2
  outProcGood : ∀ c ∈ s.processed, goodCell img t c → s.out c.1 c.2 = zeroPixel ∧ Reach img t c
  outProcBad : ∀ c ∈ s.processed, ¬ goodCell img t c → s.out c.1 c.2 = img.pix c.1 c.2
  queueJust : ∀ c ∈ s.queue, inB img c → onBorder img c ∨ ∃ d, Reach img t d ∧ adj d c
  seedsPend : ∀ c ∈ seeds, inB img c → c ∈ s.queue ∨ c ∈ s.processed
  nbrsPend : ∀ c ∈ s.processed, goodCell img t c →
    ∀ d, adj c d → inB img d → d ∈ s.queue ∨ d ∈ s.processed

theorem Inv_skip (img : Image) (t : Nat) (seeds : List (Nat × Nat)) (s : FillState)
    (x y : Nat) (rest : List (Nat × Nat)) (hq : s.queue = (x, y) :: rest)
    (hInv : Inv img t seeds s) (hside : ¬ inB img (x, y) ∨ (x, y) ∈ s.processed) :
    Inv img t seeds ⟨s.out, s.visited, rest, s.processed⟩ where
  visIff := hInv.visIff
  procNodup := hInv.procNodup
  procInB := hInv.procInB
  outUnproc := hInv.outUnproc
  outProcGood := hInv.outProcGood
  outProcBad := hInv.outProcBad
  queueJust := fun c hc hb =>
    hInv.queueJust c (by rw [hq]; exact List.mem_cons_of_mem _ hc) hb
  seedsPend := fun c hc hb => by
    rcases hInv.seedsPend c hc hb with hcq | hcp
    · rw [hq] at hcq
      rcases List.mem_cons.mp hcq with rfl | hcr
      · rcases hside with hnb | hp
        · exact absurd hb hnb
        · exact Or.inr hp
      · exact Or.inl hcr
    · exact Or.inr hcp
  nbrsPend := fun c hc hg d hadj hdb => by
    rcases hInv.nbrsPend c hc hg d hadj hdb with hdq | hdp
    · rw [hq] at hdq
      rcases List.mem_cons.mp hdq with rfl | hdr
      · rcases hside with hnb | hp
        · exact absurd hdb hnb
        · exact Or.inr hp
      · exact Or.inl hdr
    · exact Or.inr hdp

theorem notMem_processed_of_unvisited (img : Image) (t : Nat) (seeds : List (Nat × Nat))
    (s : FillState) (x y : Nat) (hInv : Inv img t seeds s) (hv : s.visited x y = false) :
    (x, y) ∉ s.processed := by
  intro hmem
  have := (hInv.visIff x y).mpr hmem
  rw [hv] at this
  cases this

theorem markVisited_iff (img : Image) (t : Nat) (seeds : List (Nat × Nat)) (s : FillState)
    (x y : Nat) (hInv : Inv img t seeds s) :
    ∀ u v, markVisited s.visited x y u v = true ↔ (u, v) ∈ s.processed ++ [(x, y)] := by
  intro u v
  by_cases hc : u = x ∧ v = y
  · obtain ⟨rfl, rfl⟩ := hc
    simp [markVisited, List.mem_append]
  · rw [show markVisited s.visited x y u v = s.visited u v from by
      unfold markVisited; rw [if_neg hc]]
    rw [hInv.visIff u v, List.mem_append, List.mem_singleton]
    constructor
    · exact Or.inl
    · rintro (hm | hm)
      · exact hm
      · exact absurd (Prod.mk.injEq u v x y ▸ hm) hc

theorem processedSnoc_nodup (img : Image) (t : Nat) (seeds : List (Nat × Nat)) (s : FillState)
    (x y : Nat) (hInv : Inv img t seeds s) (hv : s.visited x y = false) :
    (s.processed ++ [(x, y)]).Nodup := by
  rw [List.nodup_append]
  refine ⟨hInv.procNodup, List.nodup_singleton _, ?_⟩
  intro a ha hb
  rw [List.mem_singleton] at hb
  subst hb
  exact notMem_processed_of_unvisited img t seeds s x y hInv hv ha

theorem Inv_mark (img : Image) (t : Nat) (seeds : List (Nat × Nat)) (s : FillState)
    (x y : Nat) (rest : List (Nat × Nat)) (hq : s.queue = (x, y) :: rest)
    (hInv : Inv img t seeds s) (hx : x < img.width) (hy : y < img.height)
    (hv : s.visited x y = false) (hbad : ¬ goodCell img t (x, y)) :
    Inv img t seeds ⟨s.out, markVisited s.visited x y, rest, s.processed ++ [(x, y)]⟩ where
  visIff := markVisited_iff img t seeds s x y hInv
  procNodup := processedSnoc_nodup img t seeds s x y hInv hv
  procInB := fun c hc => by
    rcases List.mem_append.mp hc with hc | hc
    · exact hInv.procInB c hc
    · rw [List.mem_singleton] at hc
      subst hc
      exact ⟨hx, hy⟩
  outUnproc := fun c hb hc =>
    hInv.outUnproc c hb (fun hm => hc (List.mem_append_left _ hm))
  outProcGood := fun c hc hg => by
    rcases List.mem_append.mp hc with hc | hc
    · exact hInv.outProcGood c hc hg
    · rw [List.mem_singleton] at hc
      subst hc
      exact absurd hg hbad
  outProcBad := fun c hc hg => by
    rcases List.mem_append.mp hc with hc | hc
    · exact hInv.outProcBad c hc hg
    · rw [List.mem_singleton] at hc
      subst hc
      exact hInv.outUnproc (x, y) ⟨hx, hy⟩
        (notMem_processed_of_unvisited img t seeds s x y hInv hv)
  queueJust := fun c hc hb =>
    hInv.queueJust c (by rw [hq]; exact List.mem_cons_of_mem _ hc) hb
  seedsPend := fun c hc hb => by
    rcases hInv.seedsPend c hc hb with hcq | hcp
    · rw [hq] at hcq
      rcases List.mem_cons.mp hcq with rfl | hcr
      · exact Or.inr (List.mem_append_right _ (List.mem_singleton.mpr rfl))
      · exact Or.inl hcr
    · exact Or.inr (List.mem_append_left _ hcp)
  nbrsPend := fun c hc hg d hadj hdb => by
    rcases List.mem_append.mp hc with hc | hc
    · rcases hInv.nbrsPend c hc hg d hadj hdb with hdq | hdp
      · rw [hq] at hdq
        rcases List.mem_cons.mp hdq with rfl | hdr
        · exact Or.inr (List.mem_append_right _ (List.mem_singleton.mpr rfl))
        · exact Or.inl hdr
      · exact Or.inr (List.mem_append_left _ hdp)
    · rw [List.mem_singleton] at hc
      subst hc
      exact absurd hg hbad

theorem writeZero_ne (out : Nat → Nat → Pixel) (x y : Nat) (c : Nat × Nat)
    (hne : ¬(c.1 = x ∧ c.2 = y)) : writeZero out x y c.1 c.2 = out c.1 c.2 := by
  unfold writeZero
  rw [if_neg hne]

theorem Inv_fill (img : Image) (t : Nat) (seeds : List (Nat × Nat)) (s : FillState)
    (x y : Nat) (rest : List (Nat × Nat)) (hq : s.queue = (x, y) :: rest)
    (hInv : Inv img t seeds s) (hx : x < img.width) (hy : y < img.height)
    (hv : s.visited x y = false) (hgood : goodCell img t (x, y))
    (hreach : Reach img t (x, y)) :
    Inv img t seeds ⟨writeZero s.out x y, markVisited s.visited x y,
      rest ++ neighborPushes img x y, s.processed ++ [(x, y)]⟩ where
  visIff := markVisited_iff img t seeds s x y hInv
  procNodup := processedSnoc_nodup img t seeds s x y hInv hv
  procInB := fun c hc => by
    rcases List.mem_append.mp hc with hc | hc
    · exact hInv.procInB c hc
    · rw [List.mem_singleton] at hc
      subst hc
      exact ⟨hx, hy⟩
  outUnproc := fun c hb hc => by
    have hne : ¬(c.1 = x ∧ c.2 = y) := by
      intro hcon
      refine hc (List.mem_append_right _ (List.mem_singleton.mpr ?_))
      obtain ⟨a, b⟩ := c
      simp only at hcon
      rw [hcon.1, hcon.2]
    show writeZero s.out x y c.1 c.2 = img.pix c.1 c.2
    rw [writeZero_ne s.out x y c hne]
    exact hInv.outUnproc c hb (fun hm => hc (List.mem_append_left _ hm))
  outProcGood := fun c hc hg => by
    rcases List.mem_append.mp hc with hc | hc
    · have hne : ¬(c.1 = x ∧ c.2 = y) := by
        intro hcon
        refine notMem_processed_of_unvisited img t seeds s x y hInv hv ?_
        obtain ⟨a, b⟩ := c
        simp only at hcon
        rw [← hcon.1, ← hcon.2]
        exact hc
      show writeZero s.out x y c.1 c.2 = zeroPixel ∧ Reach img t c
      rw [writeZero_ne s.out x y c hne]
      exact hInv.outProcGood c hc hg
    · rw [List.mem_singleton] at hc
      subst hc
      constructor
      · show writeZero s.out x y x y = zeroPixel
        unfold writeZero
        rw [if_pos ⟨rfl, rfl⟩]
      · exact hreach
  outProcBad := fun c hc hg => by
    rcases List.mem_append.mp hc with hc | hc
    · have hne : ¬(c.1 = x ∧ c.2 = y) := by
        intro hcon
        refine notMem_processed_of_unvisited img t seeds s x y hInv hv ?_
        obtain ⟨a, b⟩ := c
        simp only at hcon
        rw [← hcon.1, ← hcon.2]
        exact hc
      show writeZero s.out x y c.1 c.2 = img.pix c.1 c.2
      rw [writeZero_ne s.out x y c hne]
      exact hInv.outProcBad c hc hg
    · rw [List.mem_singleton] at hc
      subst hc
      exact absurd hgood hg
  queueJust := fun c hc hb => by
    rcases List.mem_append.mp hc with hc | hc
    · exact hInv.queueJust c (by rw [hq]; exact List.mem_cons_of_mem _ hc) hb
    · have := (neighborPushes_mem img x y hx hy c).mp hc
      exact Or.inr ⟨(x, y), hreach, this.1⟩
  seedsPend := fun c hc hb => by
    rcases hInv.seedsPend c hc hb with hcq | hcp
    · rw [hq] at hcq
      rcases List.mem_cons.mp hcq with rfl | hcr
      · exact Or.inr (List.mem_append_right _ (List.mem_singleton.mpr rfl))
      · exact Or.inl (List.mem_append_left _ hcr)
    · exact Or.inr (List.mem_append_left _ hcp)
  nbrsPend := fun c hc hg d hadj hdb => by
    rcases List.mem_append.mp hc with hc | hc
    · rcases hInv.nbrsPend c hc hg d hadj hdb with hdq | hdp
      · rw [hq] at hdq
        rcases List.mem_cons.mp hdq with rfl | hdr
        · exact Or.inr (List.mem_append_right _ (List.mem_singleton.mpr rfl))
        · exact Or.inl (List.mem_append_left _ hdr)
      · exact Or.inr (List.mem_append_left _ hdp)
    · rw [List.mem_singleton] at hc
      subst hc
      exact Or.inl (List.mem_append_right _
        ((neighborPushes_mem img x y hx hy d).mpr ⟨hadj, hdb⟩))

/-- Reachability of the cell being processed, from its queue justification. -/
theorem reach_of_just (img : Image) (t : Nat) (x y : Nat)
    (hb : inB img (x, y)) (hgood : goodCell img t (x, y))
    (hjust : onBorder img (x, y) ∨ ∃ d, Reach img t d ∧ adj d (x, y)) :
    Reach img t (x, y) := by
  rcases hjust with hbord | ⟨d, hd, hadj⟩
  · exact Reach.border (x, y) hb hbord hgood
  · exact Reach.step d (x, y) hd hadj hb hgood

theorem processCell?_inv (img : Image) (t : Nat) (seeds : List (Nat × Nat)) (s : FillState)
    (x y : Nat) (rest : List (Nat × Nat)) (s2 : FillState) (hq : s.queue = (x, y) :: rest)
    (hInv : Inv img t seeds s) (hstep : processCell? img t s x y rest = some s2) :
    Inv img t seeds s2 := by
  by_cases hx : x < img.width
  · by_cases hy : y < img.height
    · cases hv : s.visited x y with
      | true =>
        rw [processCell?_visited img t s x y rest hx hy hv] at hstep
        obtain rfl := Option.some.inj hstep
        exact Inv_skip img t seeds s x y rest hq hInv (Or.inr ((hInv.visIff x y).mp hv))
      | false =>
        by_cases hnw : nearWhite (img.pix x y)
        · cases hsur : surroundedBool img t x y with
          | true =>
            rw [processCell?_halt img t s x y rest hx hy hv hnw hsur] at hstep
            obtain rfl := Option.some.inj hstep
            refine Inv_mark img t seeds s x y rest hq hInv hx hy hv ?_
            intro hgood
            have := (surroundedBool_false_iff img t x y hx hy).mpr hgood.2
            rw [hsur] at this
            cases this
          | false =>
            rw [processCell?_fill img t s x y rest hx hy hv hnw hsur] at hstep
            obtain rfl := Option.some.inj hstep
            have hgood : goodCell img t (x, y) :=
              ⟨hnw, (surroundedBool_false_iff img t x y hx hy).mp hsur⟩
            have hreach : Reach img t (x, y) :=
              reach_of_just img t x y ⟨hx, hy⟩ hgood
                (hInv.queueJust (x, y) (by rw [hq]; exact List.mem_cons_self _ _) ⟨hx, hy⟩)
            exact Inv_fill img t seeds s x y rest hq hInv hx hy hv hgood hreach
        · rw [processCell?_notWhite img t s x y rest hx hy hv hnw] at hstep
          obtain rfl := Option.some.inj hstep
          exact Inv_mark img t seeds s x y rest hq hInv hx hy hv (fun hgood => hnw hgood.1)
    · rw [processCell?_oob img t s x y rest (Or.inr (by omega))] at hstep
      obtain rfl := Option.some.inj hstep
      exact Inv_skip img t seeds s x y rest hq hInv (Or.inl (fun hb => hy hb.2))
  · rw [processCell?_oob img t s x y rest (Or.inl (by omega))] at hstep
    obtain rfl := Option.some.inj hstep
    exact Inv_skip img t seeds s x y rest hq hInv (Or.inl (fun hb => hx hb.1))

theorem fillLoop?_inv (img : Image) (t : Nat) (seeds : List (Nat × Nat)) :
    ∀ fuel s s2, Inv img t seeds s → fillLoop? img t fuel s = some s2 →
      Inv img t seeds s2 := by
  intro fuel
  induction fuel with
  | zero =>
    intro s s2 _ h
    exact absurd h (by unfold fillLoop?; exact fun hcon => Option.noConfusion hcon)
  | succ n ih =>
    intro s s2 hInv h
    cases hq : s.queue with
    | nil =>
      unfold fillLoop? at h
      rw [hq] at h
      obtain rfl := Option.some.inj h
      exact hInv
    | cons hd rest =>
      obtain ⟨x, y⟩ := hd
      unfold fillLoop? at h
      rw [hq] at h
      change (processCell? img t s x y rest).bind (fillLoop? img t n) = some s2 at h
      cases hstep : processCell? img t s x y rest with
      | none =>
        rw [hstep] at h
        cases h
      | some s1 =>
        rw [hstep] at h
        exact ih s1 s2 (processCell?_inv img t seeds s x y rest s1 hq hInv hstep) h

theorem Inv_init (img : Image) (t : Nat) (seeds : List (Nat × Nat))
    (hsound : ∀ c ∈ seeds, c.1 < img.width ∧ c.2 < img.height ∧
      (c.1 = 0 ∨ c.1 = img.width - 1 ∨ c.2 = 0 ∨ c.2 = img.height - 1)) :
    Inv img t seeds (initState img seeds) where
  visIff := fun x y => by
    constructor
    · intro hcon
      cases hcon
    · intro hcon
      cases hcon
  procNodup := List.nodup_nil
  procInB := fun c hc => absurd hc (List.not_mem_nil c)
  outUnproc := fun c _ _ => rfl
  outProcGood := fun c hc => absurd hc (List.not_mem_nil c)
  outProcBad := fun c hc => absurd hc (List.not_mem_nil c)
  queueJust := fun c hc _ => Or.inl (hsound c hc).2.2
  seedsPend := fun c hc _ => Or.inl hc
  nbrsPend := fun c hc => absurd hc (List.not_mem_nil c)

/-- The master run lemma: for a non-degenerate image the fill completes,
and the final state satisfies the full invariant with an empty queue,
for a seed list covering the whole border ring. -/
theorem fillRun?_spec (img : Image) (t : Nat) (hw : 1 ≤ img.width) (hh : 1 ≤ img.height) :
    ∃ seeds s, borderSeeds? img.width img.height = some seeds ∧
      fillRun? img t = some s ∧ s.queue = [] ∧ Inv img t seeds s ∧
      (∀ c : Nat × Nat, inB img c → onBorder img c → c ∈ seeds) := by
  obtain ⟨seeds, hbs, hsound, hcov⟩ := borderSeeds_spec img.width img.height hw hh
  have hInit : Inv img t seeds (initState img seeds) := Inv_init img t seeds hsound
  have hmeas : fillMeasure img (initState img seeds) < initFuel img seeds := by
    have hle := unvisitedCount_le img (fun _ _ => false)
    show (initState img seeds).queue.length +
      5 * unvisitedCount img (initState img seeds).visited < initFuel img seeds
    show seeds.length + 5 * unvisitedCount img (fun _ _ => false) < initFuel img seeds
    unfold initFuel
    omega
  obtain ⟨s2, hloop, hq2⟩ := fillLoop?_total img t (initFuel img seeds)
    (initState img seeds) hmeas
  refine ⟨seeds, s2, hbs, ?_, hq2, fillLoop?_inv img t seeds _ _ _ hInit hloop, ?_⟩
  · unfold fillRun?
    rw [hbs]
    exact hloop
  · intro c hb hbord
    exact hcov c hb.1 hb.2 hbord

/-! ### Consequences at the final state -/

theorem Reach_processed (img : Image) (t : Nat) (seeds : List (Nat × Nat)) (s : FillState)
    (hInv : Inv img t seeds s) (hempty : s.queue = [])
    (hcov : ∀ c : Nat × Nat, inB img c → onBorder img c → c ∈ seeds) :
    ∀ c, Reach img t c → c ∈ s.processed := by
  intro c hr
  induction hr with
  | border c hb hbord hg =>
    rcases hInv.seedsPend c (hcov c hb hbord) hb with hcq | hcp
    · rw [hempty] at hcq
      cases hcq
    · exact hcp
  | step c d hr hadj hb hg ih =>
    rcases hInv.nbrsPend c ih (Reach_good hr) d hadj hb with hdq | hdp
    · rw [hempty] at hdq
      cases hdq
    · exact hdp

theorem final_out_cases (img : Image) (t : Nat) (seeds : List (Nat × Nat)) (s : FillState)
    (hInv : Inv img t seeds s) (x y : Nat) (hx : x < img.width) (hy : y < img.height) :
    s.out x y = img.pix x y ∨ (s.out x y = zeroPixel ∧ nearWhite (img.pix x y)) := by
  by_cases hp : (x, y) ∈ s.processed
  · by_cases hg : goodCell img t (x, y)
    · exact Or.inr ⟨(hInv.outProcGood (x, y) hp hg).1, hg.1⟩
    · exact Or.inl (hInv.outProcBad (x, y) hp hg)
  · exact Or.inl (hInv.outUnproc (x, y) ⟨hx, hy⟩ hp)

theorem final_changed_iff (img : Image) (t : Nat) (seeds : List (Nat × Nat)) (s : FillState)
    (hInv : Inv img t seeds s) (hempty : s.queue = [])
    (hcov : ∀ c : Nat × Nat, inB img c → onBorder img c → c ∈ seeds)
    (x y : Nat) (hx : x < img.width) (hy : y < img.height) :
    s.out x y ≠ img.pix x y ↔ Reach img t (x, y) := by
  constructor
  · intro hne
    by_cases hp : (x, y) ∈ s.processed
    · by_cases hg : goodCell img t (x, y)
      · exact (hInv.outProcGood (x, y) hp hg).2
      · exact absurd (hInv.outProcBad (x, y) hp hg) hne
    · exact absurd (hInv.outUnproc (x, y) ⟨hx, hy⟩ hp) hne
  · intro hr
    have hp := Reach_processed img t seeds s hInv hempty hcov (x, y) hr
    have hg := Reach_good hr
    rw [(hInv.outProcGood (x, y) hp hg).1]
    intro hcon
    have hr0 : (img.pix x y).r = 0 := by rw [← hcon]; rfl
    have hnw : 240 < (img.pix x y).r := hg.1.1
    omega

theorem final_removed_of_reach (img : Image) (t : Nat) (seeds : List (Nat × Nat))
    (s : FillState) (hInv : Inv img t seeds s) (hempty : s.queue = [])
    (hcov : ∀ c : Nat × Nat, inB img c → onBorder img c → c ∈ seeds)
    (c : Nat × Nat) (hr : Reach img t c) : s.out c.1 c.2 = zeroPixel :=
  (hInv.outProcGood c (Reach_processed img t seeds s hInv hempty hcov c hr) (Reach_good hr)).1

/-! ### Arithmetic helpers for the idempotence argument -/

theorem absDiff_zero (a : Nat) : absDiff a 0 = a := by
  unfold absDiff
  split <;> omega

theorem absDiff_small (a b : Nat) (h1 : 240 < a) (h2 : a ≤ 255) (h3 : 240 < b)
    (h4 : b ≤ 255) : absDiff a b ≤ 14 := by
  unfold absDiff
  split <;> omega

/-- No cell of the output of a completed fill is reachable again: every
chain would have to start at an in-bounds border cell of the output that
is near-white with no edge-triggering neighbor, and no such cell
survives the first fill. -/
theorem no_reach_in_output (img : Image) (t : Nat)
    (hvalid : ∀ x, x < img.width → ∀ y, y < img.height →
      (img.pix x y).r ≤ 255 ∧ (img.pix x y).g ≤ 255 ∧ (img.pix x y).b ≤ 255)
    (seeds : List (Nat × Nat)) (s : FillState)
    (hInv : Inv img t seeds s) (hempty : s.queue = [])
    (hcov : ∀ c : Nat × Nat, inB img c → onBorder img c → c ∈ seeds) :
    ∀ c, ¬ Reach ⟨img.width, img.height, s.out⟩ t c := by
  intro c0 hr
  induction hr with
  | step c d hr hadj hb hg ih => exact ih
  | border c hb hbord hg =>
    have hbI : inB img c := hb
    have hbordI : onBorder img c := hbord
    have hnwOut : nearWhite (s.out c.1 c.2) := hg.1
    have hnoEdgeOut : noEdgeNbr ⟨img.width, img.height, s.out⟩ t c := hg.2
    have hp : c ∈ s.processed := by
      rcases hInv.seedsPend c (hcov c hbI hbordI) hbI with hcq | hcp
      · rw [hempty] at hcq
        cases hcq
      · exact hcp
    by_cases hgs : goodCell img t c
    · have hzero := (hInv.outProcGood c hp hgs).1
      rw [hzero] at hnwOut
      exact absurd hnwOut.1 (by decide)
    · have houtc : s.out c.1 c.2 = img.pix c.1 c.2 := hInv.outProcBad c hp hgs
      have hnwSrc : nearWhite (img.pix c.1 c.2) := by
        rw [houtc] at hnwOut
        exact hnwOut
      have hnEdge : ¬ noEdgeNbr img t c := fun hn => hgs ⟨hnwSrc, hn⟩
      unfold noEdgeNbr at hnEdge
      push_neg at hnEdge
      obtain ⟨d, hadjd, hdb, hne⟩ := hnEdge
      have hbtrue : is_edge (img.pix c.1 c.2) (img.pix d.1 d.2) t = true := by
        cases hcase : is_edge (img.pix c.1 c.2) (img.pix d.1 d.2) t with
        | true => rfl
        | false => exact absurd hcase hne
      have hedgeOut : is_edge (s.out c.1 c.2) (s.out d.1 d.2) t = true := by
        rw [houtc]
        rcases final_out_cases img t seeds s hInv d.1 d.2 hdb.1 hdb.2 with hkeep | ⟨hzd, hnwd⟩
        · rw [hkeep]
          exact hbtrue
        · rw [hzd]
          rcases le_or_lt t 240 with hle | hgt
          · rw [is_edge_true_iff]
            refine Or.inl ?_
            have hz : absDiff (img.pix c.1 c.2).r zeroPixel.r = (img.pix c.1 c.2).r :=
              absDiff_zero _
            have hnwr : 240 < (img.pix c.1 c.2).r := hnwSrc.1
            omega
          · exfalso
            rw [is_edge_true_iff] at hbtrue
            have hvc := hvalid c.1 hbI.1 c.2 hbI.2
            have hvd := hvalid d.1 hdb.1 d.2 hdb.2
            obtain ⟨hc1, hc2, hc3⟩ := hnwSrc
            obtain ⟨hd1, hd2, hd3⟩ := hnwd
            have hs1 := absDiff_small (img.pix c.1 c.2).r (img.pix d.1 d.2).r hc1 hvc.1 hd1 hvd.1
            have hs2 := absDiff_small (img.pix c.1 c.2).g (img.pix d.1 d.2).g hc2 hvc.2.1 hd2 hvd.2.1
            have hs3 := absDiff_small (img.pix c.1 c.2).b (img.pix d.1 d.2).b hc3 hvc.2.2 hd3 hvd.2.2
            omega
      have hfalse := hnoEdgeOut d hadjd hdb
      rw [hfalse] at hedgeOut
      cases hedgeOut

/-! ### Determinism: the fill depends only on the in-bounds buffer contents -/

/-- Relating two fill states over two images with equal dimensions and
equal in-bounds pixels: queues, traces and visited grids agree, and the
output buffers agree in bounds. -/
def StateRel (img1 _img2 : Image) (s1 s2 : FillState) : Prop :=
  s1.queue = s2.queue ∧ s1.processed = s2.processed ∧
    (∀ u v, s1.visited u v = s2.visited u v) ∧
    (∀ u v, u < img1.width → v < img1.height → s1.out u v = s2.out u v)

theorem surroundedBool_congr (img1 img2 : Image) (t x y : Nat)
    (hw : img1.width = img2.width) (hh : img1.height = img2.height)
    (hpix : ∀ u v, u < img1.width → v < img1.height → img1.pix u v = img2.pix u v)
    (hx : x < img1.width) (hy : y < img1.height) :
    surroundedBool img1 t x y = surroundedBool img2 t x y := by
  have hx1 : x - 1 < img1.width := by omega
  have hy1 : y - 1 < img1.height := by omega
  unfold surroundedBool
  rw [← hw, ← hh]
  by_cases h1 : 0 < x <;> by_cases h2 : x + 1 < img1.width <;>
    by_cases h3 : 0 < y <;> by_cases h4 : y + 1 < img1.height <;>
    simp [h1, h2, h3, h4, hpix, hx, hy, hx1, hy1]

theorem neighborPushes_congr (img1 img2 : Image) (x y : Nat)
    (hw : img1.width = img2.width) (hh : img1.height = img2.height) :
    neighborPushes img1 x y = neighborPushes img2 x y := by
  unfold neighborPushes
  rw [hw, hh]

theorem processCell?_bisim (img1 img2 : Image) (t : Nat)
    (hw : img1.width = img2.width) (hh : img1.height = img2.height)
    (hpix : ∀ u v, u < img1.width → v < img1.height → img1.pix u v = img2.pix u v)
    (s1 s2 : FillState) (hrel : StateRel img1 img2 s1 s2) (x y : Nat)
    (rest : List (Nat × Nat)) (r1 : FillState)
    (hstep : processCell? img1 t s1 x y rest = some r1) :
    ∃ r2, processCell? img2 t s2 x y rest = some r2 ∧ StateRel img1 img2 r1 r2 := by
  obtain ⟨hq, hp, hvis, hout⟩ := hrel
  by_cases hx : x < img1.width
  · by_cases hy : y < img1.height
    · have hx2 : x < img2.width := by rw [← hw]; exact hx
      have hy2 : y < img2.height := by rw [← hh]; exact hy
      cases hv : s1.visited x y with
      | true =>
        rw [processCell?_visited img1 t s1 x y rest hx hy hv] at hstep
        obtain rfl := Option.some.inj hstep
        refine ⟨_, processCell?_visited img2 t s2 x y rest hx2 hy2
          (by rw [← hvis x y]; exact hv), ?_⟩
        exact ⟨rfl, hp, hvis, hout⟩
      | false =>
        have hv2 : s2.visited x y = false := by rw [← hvis x y]; exact hv
        have hvism : ∀ u v, markVisited s1.visited x y u v = markVisited s2.visited x y u v := by
          intro u v
          unfold markVisited
          by_cases hc : u = x ∧ v = y
          · rw [if_pos hc, if_pos hc]
          · rw [if_neg hc, if_neg hc]
            exact hvis u v
        by_cases hnw : nearWhite (img1.pix x y)
        · have hnw2 : nearWhite (img2.pix x y) := by rw [← hpix x y hx hy]; exact hnw
          cases hsur : surroundedBool img1 t x y with
          | true =>
            have hsur2 : surroundedBool img2 t x y = true := by
              rw [← surroundedBool_congr img1 img2 t x y hw hh hpix hx hy]
              exact hsur
            rw [processCell?_halt img1 t s1 x y rest hx hy hv hnw hsur] at hstep
            obtain rfl := Option.some.inj hstep
            refine ⟨_, processCell?_halt img2 t s2 x y rest hx2 hy2 hv2 hnw2 hsur2, ?_⟩
            exact ⟨rfl, by rw [hp], hvism, hout⟩
          | false =>
            have hsur2 : surroundedBool img2 t x y = false := by
              rw [← surroundedBool_congr img1 img2 t x y hw hh hpix hx hy]
              exact hsur
            rw [processCell?_fill img1 t s1 x y rest hx hy hv hnw hsur] at hstep
            obtain rfl := Option.some.inj hstep
            refine ⟨_, processCell?_fill img2 t s2 x y rest hx2 hy2 hv2 hnw2 hsur2, ?_⟩
            refine ⟨by rw [neighborPushes_congr img1 img2 x y hw hh], by rw [hp], hvism, ?_⟩
            intro u v hu hv'
            show writeZero s1.out x y u v = writeZero s2.out x y u v
            unfold writeZero
            by_cases hc : u = x ∧ v = y
            · rw [if_pos hc, if_pos hc]
            · rw [if_neg hc, if_neg hc]
              exact hout u v hu hv'
        · have hnw2 : ¬ nearWhite (img2.pix x y) := by rw [← hpix x y hx hy]; exact hnw
          rw [processCell?_notWhite img1 t s1 x y rest hx hy hv hnw] at hstep
          obtain rfl := Option.some.inj hstep
          refine ⟨_, processCell?_notWhite img2 t s2 x y rest hx2 hy2 hv2 hnw2, ?_⟩
          exact ⟨rfl, by rw [hp], hvism, hout⟩
    · rw [processCell?_oob img1 t s1 x y rest (Or.inr (by omega))] at hstep
      obtain rfl := Option.some.inj hstep
      refine ⟨_, processCell?_oob img2 t s2 x y rest (Or.inr (by rw [← hh]; omega)), ?_⟩
      exact ⟨rfl, hp, hvis, hout⟩
  · rw [processCell?_oob img1 t s1 x y rest (Or.inl (by omega))] at hstep
    obtain rfl := Option.some.inj hstep
    refine ⟨_, processCell?_oob img2 t s2 x y rest (Or.inl (by rw [← hw]; omega)), ?_⟩
    exact ⟨rfl, hp, hvis, hout⟩

theorem fillLoop?_bisim (img1 img2 : Image) (t : Nat)
    (hw : img1.width = img2.width) (hh : img1.height = img2.height)
    (hpix : ∀ u v, u < img1.width → v < img1.height → img1.pix u v = img2.pix u v) :
    ∀ fuel s1 s2 r1, StateRel img1 img2 s1 s2 →
      fillLoop? img1 t fuel s1 = some r1 →
      ∃ r2, fillLoop? img2 t fuel s2 = some r2 ∧ StateRel img1 img2 r1 r2 := by
  intro fuel
  induction fuel with
  | zero =>
    intro s1 s2 r1 _ h
    exact absurd h (by unfold fillLoop?; exact fun hcon => Option.noConfusion hcon)
  | succ n ih =>
    intro s1 s2 r1 hrel h
    cases hq1 : s1.queue with
    | nil =>
      have hq2 : s2.queue = [] := by rw [← hrel.1]; exact hq1
      unfold fillLoop? at h ⊢
      rw [hq1] at h
      rw [hq2]
      obtain rfl := Option.some.inj h
      exact ⟨s2, rfl, hrel⟩
    | cons hd rest =>
      obtain ⟨x, y⟩ := hd
      have hq2 : s2.queue = (x, y) :: rest := by rw [← hrel.1]; exact hq1
      unfold fillLoop? at h ⊢
      rw [hq1] at h
      rw [hq2]
      change (processCell? img1 t s1 x y rest).bind (fillLoop? img1 t n) = some r1 at h
      show ∃ r2, (processCell? img2 t s2 x y rest).bind (fillLoop? img2 t n) = some r2 ∧
        StateRel img1 img2 r1 r2
      cases hstep : processCell? img1 t s1 x y rest with
      | none =>
        rw [hstep] at h
        cases h
      | some m1 =>
        rw [hstep] at h
        obtain ⟨m2, hstep2, hrelm⟩ :=
          processCell?_bisim img1 img2 t hw hh hpix s1 s2 hrel x y rest m1 hstep
        obtain ⟨r2, hloop2, hrelr⟩ := ih m1 m2 r1 hrelm h
        refine ⟨r2, ?_, hrelr⟩
        rw [hstep2]
        exact hloop2

theorem fillRun?_congr (img1 img2 : Image) (t : Nat)
    (hw : img1.width = img2.width) (hh : img1.height = img2.height)
    (hpix : ∀ u v, u < img1.width → v < img1.height → img1.pix u v = img2.pix u v)
    (r1 : FillState) (h1 : fillRun? img1 t = some r1) :
    ∃ r2, fillRun? img2 t = some r2 ∧ StateRel img1 img2 r1 r2 := by
  unfold fillRun? at h1
  cases hbs : borderSeeds? img1.width img1.height with
  | none =>
    rw [hbs] at h1
    cases h1
  | some seeds =>
    rw [hbs] at h1
    change fillLoop? img1 t (initFuel img1 seeds) (initState img1 seeds) = some r1 at h1
    have hinit : StateRel img1 img2 (initState img1 seeds) (initState img2 seeds) :=
      ⟨rfl, rfl, fun u v => rfl, fun u v hu hv => hpix u v hu hv⟩
    obtain ⟨r2, hloop2, hrel⟩ := fillLoop?_bisim img1 img2 t hw hh hpix
      (initFuel img1 seeds) (initState img1 seeds) (initState img2 seeds) r1 hinit h1
    refine ⟨r2, ?_, hrel⟩
    unfold fillRun?
    rw [← hw, ← hh, hbs]
    show fillLoop? img2 t (initFuel img2 seeds) (initState img2 seeds) = some r2
    rw [show initFuel img2 seeds = initFuel img1 seeds from by unfold initFuel; rw [hw, hh]]
    exact hloop2

/-! ### Concrete test images for witnesses and counterexamples -/

/-- A 1×1 all-white opaque image. -/
def imgWhite1 : Image := ⟨1, 1, fun _ _ => ⟨255, 255, 255, 255⟩⟩

/-- A 1×1 image like `imgWhite1` whose pixel function differs out of bounds. -/
def imgWhite1b : Image := ⟨1, 1, fun x y => if x = 0 ∧ y = 0 then ⟨255, 255, 255, 255⟩
  else ⟨1, 2, 3, 4⟩⟩

/-- A 1×1 image whose only pixel is already fully transparent black. -/
def imgClear1 : Image := ⟨1, 1, fun _ _ => ⟨0, 0, 0, 0⟩⟩

/-- A 2×1 image: a white pixel next to a black pixel. -/
def imgWB : Image := ⟨2, 1, fun x _ => if x = 0 then ⟨255, 255, 255, 255⟩ else ⟨0, 0, 0, 255⟩⟩

/-- A degenerate 1×2 column image. -/
def imgCol : Image := ⟨1, 2, fun _ y => if y = 0 then ⟨255, 255, 255, 255⟩
  else ⟨128, 128, 128, 255⟩⟩

/-- A width-1, height-0 image. -/
def imgH0 : Image := ⟨1, 0, fun _ _ => ⟨255, 255, 255, 255⟩⟩

/-- A width-0, height-1 image. -/
def imgW0 : Image := ⟨0, 1, fun _ _ => ⟨255, 255, 255, 255⟩⟩

/-! ### Claim theorems -/

/-- Claim C3: `is_edge p1 p2 t` is true iff some one of the R, G, B
absolute channel differences strictly exceeds `t`; the alpha channels
are ignored; and at threshold 0 any nonzero channel difference yields an
edge. -/
theorem is_edge_characterization (p1 p2 : Pixel) (t : Nat) :
    (is_edge p1 p2 t = true ↔
      (t < absDiff p1.r p2.r ∨ t < absDiff p1.g p2.g ∨ t < absDiff p1.b p2.b)) ∧
    (∀ a1 a2 : Nat, is_edge ⟨p1.r, p1.g, p1.b, a1⟩ ⟨p2.r, p2.g, p2.b, a2⟩ t =
      is_edge p1 p2 t) ∧
    (is_edge p1 p2 0 = true ↔ (p1.r ≠ p2.r ∨ p1.g ≠ p2.g ∨ p1.b ≠ p2.b)) := by
  refine ⟨is_edge_true_iff p1 p2 t, fun a1 a2 => rfl, ?_⟩
  rw [is_edge_true_iff]
  constructor
  · rintro (h | h | h)
    · exact Or.inl (by unfold absDiff at h; split at h <;> omega)
    · exact Or.inr (Or.inl (by unfold absDiff at h; split at h <;> omega))
    · exact Or.inr (Or.inr (by unfold absDiff at h; split at h <;> omega))
  · rintro (h | h | h)
    · refine Or.inl ?_
      unfold absDiff
      split <;> omega
    · refine Or.inr (Or.inl ?_)
      unfold absDiff
      split <;> omega
    · refine Or.inr (Or.inr ?_)
      unfold absDiff
      split <;> omega

/-- Claim C10: the edge predicate is symmetric in its two pixel arguments. -/
theorem is_edge_symm (p1 p2 : Pixel) (t : Nat) : is_edge p1 p2 t = is_edge p2 p1 t := by
  unfold is_edge
  rw [absDiff_comm p1.r p2.r, absDiff_comm p1.g p2.g, absDiff_comm p1.b p2.b]

/-- Claim C4: when a dequeued in-bounds near-white candidate has an
in-bounds 4-neighbor triggering the edge predicate against it, the visit
leaves the output buffer untouched and enqueues none of the four
neighbors (the queue after the visit is exactly the remaining queue). -/
theorem edge_neighbor_halts (img : Image) (t : Nat) (s : FillState) (x y : Nat)
    (rest : List (Nat × Nat)) (hx : x < img.width) (hy : y < img.height)
    (hnw : nearWhite (img.pix x y))
    (hedge : ∃ d, adj (x, y) d ∧ inB img d ∧
      is_edge (img.pix x y) (img.pix d.1 d.2) t = true) :
    ∃ s2, processCell? img t s x y rest = some s2 ∧ s2.out = s.out ∧ s2.queue = rest := by
  cases hv : s.visited x y with
  | true => exact ⟨_, processCell?_visited img t s x y rest hx hy hv, rfl, rfl⟩
  | false =>
    have hsur : surroundedBool img t x y = true :=
      (surroundedBool_true_iff img t x y hx hy).mpr hedge
    exact ⟨_, processCell?_halt img t s x y rest hx hy hv hnw hsur, rfl, rfl⟩

/-- Witness for C4 at a concrete input: a white pixel at (0,0) of a 2×1
white-black image, threshold 30, is retained and propagates nothing. -/
theorem edge_neighbor_halts_witness :
    ∃ s2, processCell? imgWB 30 (initState imgWB [(0, 0), (1, 0)]) 0 0 [(1, 0)] = some s2 ∧
      s2.out = (initState imgWB [(0, 0), (1, 0)]).out ∧ s2.queue = [(1, 0)] :=
  edge_neighbor_halts imgWB 30 (initState imgWB [(0, 0), (1, 0)]) 0 0 [(1, 0)]
    (by decide) (by decide) (by decide)
    ⟨(1, 0), by decide, by decide, by decide⟩

/-- Claim C6: a degenerate image (width 1 or height 1, both at least 1)
is processed to completion with no out-of-bounds access (every buffer
access in the model is bounds-checked and a violation would yield
`none`), and every pixel of the grid is classified exactly once: the
processed trace has no duplicates, contains only in-bounds cells, and
contains every cell of the grid. -/
theorem degenerate_images_safe (img : Image) (t : Nat) (hw : 1 ≤ img.width)
    (hh : 1 ≤ img.height) (hdeg : img.width = 1 ∨ img.height = 1) :
    ∃ s, fillRun? img t = some s ∧ s.processed.Nodup ∧
      (∀ c ∈ s.processed, inB img c) ∧
      (∀ x y, x < img.width → y < img.height → (x, y) ∈ s.processed) := by
  obtain ⟨seeds, s, hbs, hfill, hq, hInv, hcov⟩ := fillRun?_spec img t hw hh
  refine ⟨s, hfill, hInv.procNodup, hInv.procInB, ?_⟩
  intro x y hx hy
  have hbord : onBorder img (x, y) := by
    rcases hdeg with hd | hd
    · exact Or.inl (by omega)
    · exact Or.inr (Or.inr (Or.inl (by omega)))
  rcases hInv.seedsPend (x, y) (hcov (x, y) ⟨hx, hy⟩ hbord) ⟨hx, hy⟩ with hcq | hcp
  · rw [hq] at hcq
    cases hcq
  · exact hcp

/-- Witness for C6 at a concrete 1×2 image. -/
theorem degenerate_images_safe_witness :
    ∃ s, fillRun? imgCol 30 = some s ∧ s.processed.Nodup ∧
      (∀ c ∈ s.processed, inB imgCol c) ∧
      (∀ x y, x < imgCol.width → y < imgCol.height → (x, y) ∈ s.processed) :=
  degenerate_images_safe imgCol 30 (by decide) (by decide) (Or.inl rfl)

/-- Claim C8: for any image with positive dimensions the BFS terminates
with an empty queue, and since no coordinate is classified twice the
number of classified cells is at most `width * height`. -/
theorem fill_terminates (img : Image) (t : Nat) (hw : 1 ≤ img.width)
    (hh : 1 ≤ img.height) :
    ∃ s, fillRun? img t = some s ∧ s.queue = [] ∧ s.processed.Nodup ∧
      s.processed.length ≤ img.width * img.height := by
  obtain ⟨seeds, s, hbs, hfill, hq, hInv, hcov⟩ := fillRun?_spec img t hw hh
  refine ⟨s, hfill, hq, hInv.procNodup, ?_⟩
  have hsub : s.processed.toFinset ⊆ (Finset.range img.width) ×ˢ (Finset.range img.height) := by
    intro c hc
    rw [List.mem_toFinset] at hc
    have := hInv.procInB c hc
    rw [Finset.mem_product, Finset.mem_range, Finset.mem_range]
    exact this
  calc s.processed.length = s.processed.toFinset.card :=
        (List.toFinset_card_of_nodup hInv.procNodup).symm
    _ ≤ ((Finset.range img.width) ×ˢ (Finset.range img.height)).card :=
        Finset.card_le_card hsub
    _ = img.width * img.height := by
        rw [Finset.card_product, Finset.card_range, Finset.card_range]

/-- Witness for C8 at a concrete 2×1 image. -/
theorem fill_terminates_witness :
    ∃ s, fillRun? imgWB 30 = some s ∧ s.queue = [] ∧ s.processed.Nodup ∧
      s.processed.length ≤ imgWB.width * imgWB.height :=
  fill_terminates imgWB 30 (by decide) (by decide)

/-- Claim C1 (amended): for a positive-size image, the set of pixels the
fill replaces (each overwritten with the fully transparent black pixel,
so its value differs from the source) is exactly the set of pixels
reachable from the outer border through a 4-connected chain of cells,
each near-white in the source and with no in-bounds 4-neighbor whose
R, G or B channel differs from it by strictly more than the threshold. -/
theorem removal_set_eq_reach (img : Image) (t : Nat)
    (hw : 1 ≤ img.width) (hh : 1 ≤ img.height) (out : Image)
    (hrun : remove_background? img t = some out) (x y : Nat)
    (hx : x < img.width) (hy : y < img.height) :
    out.pix x y ≠ img.pix x y ↔ Reach img t (x, y) := by
  obtain ⟨seeds, s, hbs, hfill, hq, hInv, hcov⟩ := fillRun?_spec img t hw hh
  unfold remove_background? at hrun
  rw [hfill] at hrun
  simp only [Option.map_some'] at hrun
  obtain rfl := Option.some.inj hrun
  show s.out x y ≠ img.pix x y ↔ Reach img t (x, y)
  exact final_changed_iff img t seeds s hInv hq hcov x y hx hy

/-- Counterexample to C1 as stated: a 1×1 image whose single source
pixel is fully transparent black.  The output pixel has alpha 0, yet the
pixel is not near-white, hence not reachable. -/
theorem removal_alpha_counterexample :
    ∃ out, remove_background? imgClear1 0 = some out ∧
      (out.pix 0 0).a = 0 ∧ ¬ Reach imgClear1 0 (0, 0) := by
  obtain ⟨out, hout⟩ := Option.isSome_iff_exists.mp
    (show (remove_background? imgClear1 0).isSome = true from rfl)
  refine ⟨out, hout, ?_, ?_⟩
  · have hmap : (remove_background? imgClear1 0).map (fun o => (o.pix 0 0).a) = some 0 := rfl
    rw [hout] at hmap
    simp only [Option.map_some'] at hmap
    exact Option.some.inj hmap
  · intro hr
    exact absurd (Reach_good hr).1.1 (by decide)

/-- Witness for C1: the single pixel of the all-white 1×1 image is
reachable, obtained from the amended theorem at a concrete run. -/
theorem removal_set_eq_reach_witness : Reach imgWhite1 0 (0, 0) := by
  obtain ⟨out, hout⟩ := Option.isSome_iff_exists.mp
    (show (remove_background? imgWhite1 0).isSome = true from rfl)
  refine (removal_set_eq_reach imgWhite1 0 (by decide) (by decide) out hout 0 0
    (by decide) (by decide)).mp ?_
  have hmap : (remove_background? imgWhite1 0).map (fun o => o.pix 0 0) = some zeroPixel := rfl
  rw [hout] at hmap
  simp only [Option.map_some'] at hmap
  rw [Option.some.inj hmap]
  decide

/-- Claim C2 (amended): each output pixel is either the source pixel
unchanged (kept) or the fully transparent black pixel `(0,0,0,0)`
(removed, the source pixel then being near-white): the alpha channel is
0 or unchanged as claimed, but removed pixels have their R, G, B
channels zeroed as well, not preserved. -/
theorem output_pixel_kept_or_cleared (img : Image) (t : Nat)
    (hw : 1 ≤ img.width) (hh : 1 ≤ img.height) (out : Image)
    (hrun : remove_background? img t = some out) (x y : Nat)
    (hx : x < img.width) (hy : y < img.height) :
    out.pix x y = img.pix x y ∨ (out.pix x y = zeroPixel ∧ nearWhite (img.pix x y)) := by
  obtain ⟨seeds, s, hbs, hfill, hq, hInv, hcov⟩ := fillRun?_spec img t hw hh
  unfold remove_background? at hrun
  rw [hfill] at hrun
  simp only [Option.map_some'] at hrun
  obtain rfl := Option.some.inj hrun
  show s.out x y = img.pix x y ∨ (s.out x y = zeroPixel ∧ nearWhite (img.pix x y))
  exact final_out_cases img t seeds s hInv x y hx hy

/-- Counterexample to C2 as stated: removing the single white pixel of a
1×1 white image zeroes its red channel (255 becomes 0), so RGB values of
removed pixels are not unchanged. -/
theorem rgb_changed_counterexample :
    ∃ out, remove_background? imgWhite1 0 = some out ∧
      (out.pix 0 0).a = 0 ∧ (out.pix 0 0).r ≠ (imgWhite1.pix 0 0).r := by
  obtain ⟨out, hout⟩ := Option.isSome_iff_exists.mp
    (show (remove_background? imgWhite1 0).isSome = true from rfl)
  have hmap : (remove_background? imgWhite1 0).map (fun o => o.pix 0 0) = some zeroPixel := rfl
  rw [hout] at hmap
  simp only [Option.map_some'] at hmap
  have hpx : out.pix 0 0 = zeroPixel := Option.some.inj hmap
  refine ⟨out, hout, ?_, ?_⟩
  · rw [hpx]
    decide
  · rw [hpx]
    decide

/-- Witness for C2 at a concrete input: the kept transparent pixel of
`imgClear1`. -/
theorem output_pixel_kept_or_cleared_witness :
    ∃ out, remove_background? imgClear1 0 = some out ∧
      (out.pix 0 0 = imgClear1.pix 0 0 ∨
        (out.pix 0 0 = zeroPixel ∧ nearWhite (imgClear1.pix 0 0))) := by
  obtain ⟨out, hout⟩ := Option.isSome_iff_exists.mp
    (show (remove_background? imgClear1 0).isSome = true from rfl)
  exact ⟨out, hout, output_pixel_kept_or_cleared imgClear1 0 (by decide) (by decide)
    out hout 0 0 (by decide) (by decide)⟩

/-- Claim C5: the fill is idempotent.  For a positive-size image with
8-bit channel values, running `remove_background` again, with the same
threshold, on the output of a run changes nothing: the second output has
the same dimensions and the same pixel at every in-bounds coordinate. -/
theorem remove_background_idempotent (img : Image) (t : Nat)
    (hw : 1 ≤ img.width) (hh : 1 ≤ img.height)
    (hvalid : ∀ x, x < img.width → ∀ y, y < img.height →
      (img.pix x y).r ≤ 255 ∧ (img.pix x y).g ≤ 255 ∧ (img.pix x y).b ≤ 255)
    (out1 : Image) (h1 : remove_background? img t = some out1) :
    ∃ out2, remove_background? out1 t = some out2 ∧ out2.width = out1.width ∧
      out2.height = out1.height ∧
      ∀ x y, x < out1.width → y < out1.height → out2.pix x y = out1.pix x y := by
  obtain ⟨seeds, s, hbs, hfill, hq, hInv, hcov⟩ := fillRun?_spec img t hw hh
  unfold remove_background? at h1
  rw [hfill] at h1
  simp only [Option.map_some'] at h1
  obtain rfl := Option.some.inj h1
  obtain ⟨seeds2, s2, hbs2, hfill2, hq2, hInv2, hcov2⟩ :=
    fillRun?_spec ⟨img.width, img.height, s.out⟩ t hw hh
  refine ⟨⟨img.width, img.height, s2.out⟩, ?_, rfl, rfl, ?_⟩
  · unfold remove_background?
    rw [hfill2]
    rfl
  · intro x y hx hy
    show s2.out x y = s.out x y
    by_contra hne
    exact no_reach_in_output img t hvalid seeds s hInv hq hcov (x, y)
      ((final_changed_iff ⟨img.width, img.height, s.out⟩ t seeds2 s2 hInv2 hq2 hcov2
        x y hx hy).mp hne)

/-- Witness for C5 at a concrete run on the 1×1 white image. -/
theorem remove_background_idempotent_witness :
    ∃ out1, remove_background? imgWhite1 30 = some out1 ∧
      ∃ out2, remove_background? out1 30 = some out2 ∧ out2.width = out1.width ∧
        out2.height = out1.height ∧
        ∀ x y, x < out1.width → y < out1.height → out2.pix x y = out1.pix x y := by
  obtain ⟨out1, hout1⟩ := Option.isSome_iff_exists.mp
    (show (remove_background? imgWhite1 30).isSome = true from rfl)
  exact ⟨out1, hout1, remove_background_idempotent imgWhite1 30 (by decide) (by decide)
    (by decide) out1 hout1⟩

/-- Claim C7 (the code has no zero-size rejection): on a width-1,
height-0 image the model faults during border seeding — `none` models
the `u32` underflow of `height - 1` at the seeding loops — for every
threshold, and on a width-0, height-1 image the fill is entered and runs
to completion; in neither case is the precondition violation rejected
before the fill. -/
theorem zero_size_not_rejected (t : Nat) :
    remove_background? imgH0 t = none ∧ (∃ o, remove_background? imgW0 t = some o) :=
  ⟨rfl, ⟨_, rfl⟩⟩

/-- Claim C9: the fill is deterministic.  Two input buffers of the same
dimensions with identical in-bounds contents, run with the same
threshold, yield outputs of the same dimensions with identical in-bounds
contents. -/
theorem remove_background_deterministic (img1 img2 : Image) (t : Nat)
    (hw : img1.width = img2.width) (hh : img1.height = img2.height)
    (hpix : ∀ x, x < img1.width → ∀ y, y < img1.height → img1.pix x y = img2.pix x y)
    (h1 : 1 ≤ img1.width) (h2 : 1 ≤ img1.height) :
    ∃ o1 o2, remove_background? img1 t = some o1 ∧ remove_background? img2 t = some o2 ∧
      o1.width = o2.width ∧ o1.height = o2.height ∧
      ∀ x y, x < o1.width → y < o1.height → o1.pix x y = o2.pix x y := by
  obtain ⟨seeds, s, hbs, hfill, hq, hInv, hcov⟩ := fillRun?_spec img1 t h1 h2
  obtain ⟨r2, hfill2, hrel⟩ := fillRun?_congr img1 img2 t hw hh
    (fun u v hu hv => hpix u hu v hv) s hfill
  refine ⟨⟨img1.width, img1.height, s.out⟩, ⟨img2.width, img2.height, r2.out⟩,
    ?_, ?_, hw, hh, ?_⟩
  · unfold remove_background?
    rw [hfill]
    rfl
  · unfold remove_background?
    rw [hfill2]
    rfl
  · intro x y hx hy
    exact hrel.2.2.2 x y hx hy

/-- Witness for C9: two 1×1 white images whose pixel functions differ
only out of bounds produce in-bounds-identical outputs. -/
theorem remove_background_deterministic_witness :
    ∃ o1 o2, remove_background? imgWhite1 30 = some o1 ∧
      remove_background? imgWhite1b 30 = some o2 ∧ o1.width = o2.width ∧
      o1.height = o2.height ∧
      ∀ x y, x < o1.width → y < o1.height → o1.pix x y = o2.pix x y :=
  remove_background_deterministic imgWhite1 imgWhite1b 30 rfl rfl (by decide)
    (by decide) (by decide)

end Rico
